import Mathlib

/-!
Verification of the DevLog repository (a personal engineering-journal CLI).

The development shallowly embeds the Python source:
* text is modelled as `List Char` (`PyStr`), mirroring Python `str` operations
  (`strip`, `split`, `lower`, substring search) on ASCII data;
* SQLite tables are modelled as in-memory lists of records, one record type per
  table, and each `db.py` function becomes a pure state-passing function;
* SQLite `julianday` instants (real-valued day counts) are modelled as integers;
  every property proved here only uses the ordered additive structure of time;
* raw file bytes are modelled as `List Nat` (one entry per byte).
-/

/-- Python strings, modelled as lists of characters. -/
abbrev PyStr := List Char

/-- The whitespace characters recognised by Python `str.strip` / `str.split`
for ASCII input: space, tab, newline, carriage return, vertical tab, form feed. -/
def pyIsSpace (c : Char) : Bool :=
  c = ' ' || c = '\t' || c = '\n' || c = '\x0d' || c = '\x0b' || c = '\x0c'

/-- The 26 ASCII upper/lower case pairs. -/
def UPPER_LOWER : List (Char × Char) :=
  [('A','a'), ('B','b'), ('C','c'), ('D','d'), ('E','e'), ('F','f'), ('G','g'),
   ('H','h'), ('I','i'), ('J','j'), ('K','k'), ('L','l'), ('M','m'), ('N','n'),
   ('O','o'), ('P','p'), ('Q','q'), ('R','r'), ('S','s'), ('T','t'), ('U','u'),
   ('V','v'), ('W','w'), ('X','x'), ('Y','y'), ('Z','z')]

/-- ASCII lower-casing of one character (Python `str.lower` restricted to ASCII),
written as an explicit table so that facts about it are elementary. -/
def pyToLower (c : Char) : Char :=
  match UPPER_LOWER.find? (fun q => q.1 = c) with
  | some q => q.2
  | none => c

/-- Python `str.lower` (ASCII fragment). -/
def pyLower (s : PyStr) : PyStr := s.map pyToLower

/-- Python `str.strip()`: drop whitespace from both ends. -/
def pyStrip (s : PyStr) : PyStr :=
  ((s.dropWhile pyIsSpace).reverse.dropWhile pyIsSpace).reverse

/-- Worker for `pySplitWs`; `acc` holds the current word reversed. -/
def splitWsAux : PyStr → PyStr → List PyStr
  | [], acc => if acc = [] then [] else [acc.reverse]
  | c :: rest, acc =>
    if pyIsSpace c then
      if acc = [] then splitWsAux rest [] else acc.reverse :: splitWsAux rest []
    else splitWsAux rest (c :: acc)

/-- Python `str.split()` with no argument: split on whitespace runs, no empty parts. -/
def pySplitWs (s : PyStr) : List PyStr := splitWsAux s []

/-- Worker for `pySplitSep`. -/
def splitSepAux (sep : Char) : PyStr → PyStr → List PyStr
  | [], acc => [acc.reverse]
  | c :: rest, acc =>
    if c = sep then acc.reverse :: splitSepAux sep rest []
    else splitSepAux sep rest (c :: acc)

/-- Python `str.split(sep)` with an explicit separator: empty parts are kept. -/
def pySplitSep (sep : Char) (s : PyStr) : List PyStr := splitSepAux sep s []

/-- Boolean `List.isPrefixOf` specialised to characters (used by `containsSub`). -/
def isPrefixList : PyStr → PyStr → Bool
  | [], _ => true
  | _ :: _, [] => false
  | a :: as, b :: bs => a = b && isPrefixList as bs

/-- Substring containment (Python `needle in hay` / `re` literal search). -/
def containsSub (needle : PyStr) : PyStr → Bool
  | [] => needle.isEmpty
  | h :: t => isPrefixList needle (h :: t) || containsSub needle t

/-- Python list slicing `l[-n:]`. -/
def takeLast {α : Type} (n : Nat) (l : List α) : List α := l.drop (l.length - n)

/-- Join a list of strings with a separator (Python `sep.join`). -/
def pyJoin (sep : PyStr) (parts : List PyStr) : PyStr :=
  (parts.intersperse sep).flatten

-- ---------------------------------------------------------------------------
-- collector.py
-- ---------------------------------------------------------------------------

/-- `collector.SENSITIVE_PATTERN`: the alternatives of the sensitive-keyword
regex.  The regex is a case-insensitive alternation of literal substrings; the
two `aws_…` alternatives carry `\b` word boundaries in the source, but since
`key` is itself an alternative and is a substring of both `aws_…` literals, the
boundaries never change whether the whole pattern matches; they are therefore
modelled as plain substrings. -/
def SENSITIVE_KEYWORDS : List PyStr :=
  [ "password", "secret", "key", "token", "auth", "bearer", "credentials",
    "aws_access_key_id", "aws_secret_access_key" ].map String.toList

/-- `SENSITIVE_PATTERN.search(cmd)`: some alternative occurs somewhere in `cmd`,
case-insensitively (modelled by lower-casing the subject; the keywords are
already lower case). -/
def sensitive_search (s : PyStr) : Bool :=
  SENSITIVE_KEYWORDS.any fun k => containsSub k (pyLower s)

/-- `collector.NOISE_COMMANDS`. -/
def NOISE_COMMANDS : List PyStr :=
  [ "ls", "ll", "la", "cd", "clear", "pwd", "exit", "history", "grep", "cat",
    "echo", "top", "htop" ].map String.toList

/-- `collector.is_valid_command`. -/
def is_valid_command (cmd0 : PyStr) : Bool :=
  let cmd := pyStrip cmd0
  if cmd = [] || cmd.length < 3 then false
  else
    let base_cmd := match pySplitWs cmd with | [] => [] | t :: _ => pyLower t
    if NOISE_COMMANDS.contains base_cmd && (pySplitWs cmd).length = 1 then false
    else if sensitive_search cmd then false
    else true

-- basic facts about the string utilities --

theorem dropWhile_length_le (p : Char → Bool) (l : PyStr) :
    (l.dropWhile p).length ≤ l.length := by
  induction l with
  | nil => simp [List.dropWhile]
  | cons c t ih =>
    simp only [List.dropWhile]
    split
    · exact Nat.le_succ_of_le ih
    · simp

theorem pyStrip_length_le (l : PyStr) : (pyStrip l).length ≤ l.length := by
  unfold pyStrip
  calc ((l.dropWhile pyIsSpace).reverse.dropWhile pyIsSpace).reverse.length
      = ((l.dropWhile pyIsSpace).reverse.dropWhile pyIsSpace).length := by
        simp
    _ ≤ (l.dropWhile pyIsSpace).reverse.length := dropWhile_length_le _ _
    _ = (l.dropWhile pyIsSpace).length := by simp
    _ ≤ l.length := dropWhile_length_le _ _

theorem isPrefixList_iff (p l : PyStr) :
    isPrefixList p l = true ↔ ∃ t, l = p ++ t := by
  induction p generalizing l with
  | nil => simp [isPrefixList]
  | cons a as ih =>
    cases l with
    | nil => simp [isPrefixList]
    | cons b bs =>
      simp only [isPrefixList, Bool.and_eq_true, decide_eq_true_eq, ih,
        List.cons_append, List.cons.injEq]
      constructor
      · rintro ⟨rfl, t, rfl⟩; exact ⟨t, rfl, rfl⟩
      · rintro ⟨t, rfl, rfl⟩; exact ⟨rfl, t, rfl⟩

theorem containsSub_iff (needle l : PyStr) :
    containsSub needle l = true ↔ ∃ p s, l = p ++ needle ++ s := by
  induction l with
  | nil =>
    simp only [containsSub, List.isEmpty_iff]
    constructor
    · rintro rfl; exact ⟨[], [], rfl⟩
    · rintro ⟨p, s, h⟩
      rcases List.append_eq_nil.mp (List.append_eq_nil.mp h.symm).1 with ⟨_, h2⟩
      exact h2
  | cons c t ih =>
    simp only [containsSub, Bool.or_eq_true, isPrefixList_iff, ih]
    constructor
    · rintro (⟨u, hu⟩ | ⟨p, s, rfl⟩)
      · exact ⟨[], u, by simpa using hu⟩
      · exact ⟨c :: p, s, rfl⟩
    · rintro ⟨p, s, h⟩
      cases p with
      | nil => exact Or.inl ⟨s, by simpa using h⟩
      | cons x xs =>
        right
        rw [List.cons_append, List.cons_append, List.cons.injEq] at h
        exact ⟨xs, s, h.2⟩

theorem pyIsSpace_pyToLower (c : Char) : pyIsSpace (pyToLower c) = pyIsSpace c := by
  unfold pyToLower
  cases hf : UPPER_LOWER.find? (fun q => q.1 = c) with
  | none => rfl
  | some q =>
    have hmem : q ∈ UPPER_LOWER := List.mem_of_find?_eq_some hf
    have hpred : q.1 = c := by
      have := List.find?_some hf
      simpa using this
    have hboth : ∀ r ∈ UPPER_LOWER, pyIsSpace r.2 = false ∧ pyIsSpace r.1 = false := by
      decide
    rw [(hboth q hmem).1, ← hpred, (hboth q hmem).2]

theorem pyLower_dropWhile (l : PyStr) :
    pyLower (l.dropWhile pyIsSpace) = (pyLower l).dropWhile pyIsSpace := by
  induction l with
  | nil => rfl
  | cons c t ih =>
    simp only [pyLower, List.map_cons, List.dropWhile_cons, pyIsSpace_pyToLower]
    cases h : pyIsSpace c with
    | true => simpa [pyLower] using ih
    | false => simp [pyLower]

theorem pyLower_pyStrip (l : PyStr) : pyLower (pyStrip l) = pyStrip (pyLower l) := by
  unfold pyStrip
  have hrev : ∀ m : PyStr, pyLower m.reverse = (pyLower m).reverse := by
    intro m; simp [pyLower]
  rw [hrev, pyLower_dropWhile, hrev, pyLower_dropWhile]

theorem containsSub_dropWhile (k l : PyStr) (hk : k ≠ [])
    (hsp : ∀ c ∈ k, pyIsSpace c = false) (h : containsSub k l = true) :
    containsSub k (l.dropWhile pyIsSpace) = true := by
  rcases (containsSub_iff k l).mp h with ⟨p, s, rfl⟩
  rcases k with _ | ⟨k0, ktl⟩
  · exact absurd rfl hk
  apply (containsSub_iff _ _).mpr
  have hk0 : pyIsSpace k0 = false := hsp k0 (by simp)
  rw [List.append_assoc, List.dropWhile_append]
  split
  · rw [List.cons_append, List.dropWhile_cons, hk0]
    exact ⟨[], s, by simp⟩
  · exact ⟨List.dropWhile pyIsSpace p, s, by simp [List.append_assoc]⟩

theorem containsSub_reverse (k l : PyStr) (h : containsSub k l = true) :
    containsSub k.reverse l.reverse = true := by
  rcases (containsSub_iff k l).mp h with ⟨p, s, rfl⟩
  exact (containsSub_iff _ _).mpr ⟨s.reverse, p.reverse, by simp⟩

theorem containsSub_pyStrip (k l : PyStr) (hk : k ≠ [])
    (hsp : ∀ c ∈ k, pyIsSpace c = false) (h : containsSub k l = true) :
    containsSub k (pyStrip l) = true := by
  unfold pyStrip
  have h1 := containsSub_dropWhile k l hk hsp h
  have h2 := containsSub_reverse k _ h1
  have h3 := containsSub_dropWhile k.reverse _ (by simpa using hk)
    (by intro c hc; exact hsp c (by simpa using hc)) h2
  have h4 := containsSub_reverse k.reverse _ h3
  simpa using h4

/-- C7: the collector's validity filter rejects empty/short strings, bare
no-op commands, and any string containing "password" in any case; and accepts
"kubectl apply -f deploy.yaml --force". -/
theorem is_valid_command_filter :
    (∀ cmd : PyStr, cmd.length < 3 → is_valid_command cmd = false)
    ∧ (∀ w ∈ NOISE_COMMANDS, is_valid_command w = false)
    ∧ (∀ cmd : PyStr, containsSub ("password").toList (pyLower cmd) = true →
        is_valid_command cmd = false)
    ∧ is_valid_command ("kubectl apply -f deploy.yaml --force").toList = true := by
  refine ⟨?_, by decide, ?_, by decide⟩
  · intro cmd h
    have hlen : (pyStrip cmd).length < 3 :=
      lt_of_le_of_lt (pyStrip_length_le cmd) h
    unfold is_valid_command
    simp [hlen]
  · intro cmd h
    have hp : containsSub ("password").toList (pyLower (pyStrip cmd)) = true := by
      rw [pyLower_pyStrip]
      exact containsSub_pyStrip _ (pyLower cmd) (by decide) (by decide) h
    have hs : sensitive_search (pyStrip cmd) = true := by
      unfold sensitive_search
      exact List.any_eq_true.mpr ⟨("password").toList, by decide, hp⟩
    unfold is_valid_command
    simp only []
    split
    · rfl
    · split
      · rfl
      · simp [hs]

/-- Concrete instantiation of `is_valid_command_filter`. -/
theorem is_valid_command_filter_witness :
    is_valid_command ("ab").toList = false
    ∧ is_valid_command ("clear").toList = false
    ∧ is_valid_command ("ssh PassWord123").toList = false :=
  ⟨is_valid_command_filter.1 (("ab").toList) (by decide),
   is_valid_command_filter.2.1 (("clear").toList) (by decide),
   is_valid_command_filter.2.2.1 (("ssh PassWord123").toList) (by decide)⟩

-- ---------------------------------------------------------------------------
-- ai.py
-- ---------------------------------------------------------------------------

/-- `ai._NOISE_COMMANDS`: the summarizer's own (wider) noise set. -/
def AI_NOISE_COMMANDS : List PyStr :=
  [ "ls", "ll", "la", "l", "cd", "pwd", "clear", "cls", "exit", "history",
    "cat", "echo", "man", "whoami", "date", "which", "type", "alias",
    "git status", "git log", "git diff", "git branch", "git fetch",
    "kubectl get pods", "kubectl get nodes", "kubectl get svc",
    "docker ps", "docker images", "top", "htop", "ps", "df", "du"
  ].map String.toList

/-- The loop body of `ai._filter_commands`: `none` means the command is noise
and is dropped, `some` carries the stripped command that is appended. -/
def filter_noise_drop (cmd : PyStr) : Option PyStr :=
  let base := match pySplitWs cmd with | [] => ([] : PyStr) | t :: _ => t
  let full_base := pyJoin [' '] ((pySplitWs cmd).take 2)
  let is_bare_noise := AI_NOISE_COMMANDS.contains (pyStrip cmd)
  let is_base_noise := AI_NOISE_COMMANDS.contains base
    && decide ((pySplitWs cmd).length < 3)
  let is_full_noise := AI_NOISE_COMMANDS.contains full_base
  if is_bare_noise || is_base_noise || is_full_noise then none
  else some (pyStrip cmd)

/-- `ai._filter_commands`: drop noise, keep the last 80 survivors. -/
def filter_commands (commands : List PyStr) : List PyStr :=
  takeLast 80 (commands.filterMap filter_noise_drop)

/-- `ai._generate_fallback_summary`.  `today` stands for
`datetime.now().strftime("%B %d, %Y")`. -/
def generate_fallback_summary (today : PyStr)
    (commands manual_learnings : List PyStr) : PyStr :=
  let meaningful := filter_commands commands
  let lines0 : List PyStr := [("# ").toList ++ today, []]
  let lines1 := if manual_learnings ≠ [] then
      (lines0 ++ [("## Learnings").toList, []]
        ++ manual_learnings.map (fun l => ("- ").toList ++ l)) ++ [[]]
    else lines0
  let lines2 := if meaningful ≠ [] then
      ((lines1 ++ [("## Commands").toList, [], ("```").toList])
        ++ meaningful.take 60
        ++ (if 60 < meaningful.length then
              [("# ... and ").toList ++ (Nat.repr (meaningful.length - 60)).toList
                ++ (" more").toList]
            else [])) ++ [("```").toList, []]
    else lines1
  let lines3 := if manual_learnings = [] ∧ meaningful = [] then
      lines2 ++ [("_Nothing recorded today._").toList]
    else lines2
  pyJoin ['\n'] lines3

/-- `ai.generate_daily_summary`.  External effects are explicit parameters:
`api_key` is the key resolved by `_get_gemini_api_key` (`[]` = no key found);
`http_response` is the outcome of the single `urllib.request.urlopen` POST plus
response decoding: `some text` is the text extracted from a well-formed
response, `none` is any failure whatsoever (network error, timeout, non-2xx
status, undecodable or malformed JSON) — in the source each such failure
raises inside the `try` block and is absorbed by the blanket `except`. -/
def generate_daily_summary (api_key : PyStr) (http_response : Option PyStr)
    (today : PyStr) (commands manual_learnings : List PyStr) : PyStr :=
  if api_key = [] then generate_fallback_summary today commands manual_learnings
  else
    let meaningful_commands := filter_commands commands
    if meaningful_commands = [] ∧ manual_learnings = [] then
      generate_fallback_summary today commands manual_learnings
    else
      match http_response with
      | some text => text
      | none => generate_fallback_summary today commands manual_learnings

/-- C10: the summarizer's filter drops every command whose first two
whitespace-separated tokens (joined by one space) are in `_NOISE_COMMANDS`,
regardless of further arguments, while the collector's filter accepts the two
example commands. -/
theorem filter_commands_two_token_noise :
    (∀ (cmd : PyStr) (pre post : List PyStr),
      AI_NOISE_COMMANDS.contains (pyJoin [' '] ((pySplitWs cmd).take 2)) = true →
      filter_commands (pre ++ cmd :: post) = filter_commands (pre ++ post))
    ∧ filter_commands [("git log --oneline --graph").toList,
        ("docker ps -a --filter status=running").toList] = []
    ∧ is_valid_command ("git log --oneline --graph").toList = true
    ∧ is_valid_command ("docker ps -a --filter status=running").toList = true := by
  refine ⟨?_, by decide, by decide, by decide⟩
  intro cmd pre post h
  have hnone : filter_noise_drop cmd = none := by
    unfold filter_noise_drop
    simp [h]
    intro _ _
    simpa using h
  unfold filter_commands
  rw [List.filterMap_append, List.filterMap_append, List.filterMap_cons, hnone]

/-- Concrete instantiation of `filter_commands_two_token_noise`. -/
theorem filter_commands_two_token_noise_witness :
    filter_commands ([] ++ ("git log --oneline --graph").toList :: []) = [] :=
  (filter_commands_two_token_noise.1 (("git log --oneline --graph").toList)
    [] [] (by decide)).trans (by decide)

/-- C6: with no commands and no manual learnings the fallback summary is
exactly the date heading followed by the "Nothing recorded today." line. -/
theorem fallback_summary_empty (today : PyStr) :
    generate_fallback_summary today [] [] =
      ("# ").toList ++ today ++ ("\n\n_Nothing recorded today._").toList := by
  unfold generate_fallback_summary
  simp [filter_commands, takeLast, pyJoin, List.intersperse]

/-- C5: the summarizer never raises past its boundary: with no API key, or
with nothing meaningful to send, or on any failure of the HTTP call, it
returns the deterministic fallback rendering. -/
theorem generate_daily_summary_fallback (api_key : PyStr) (http : Option PyStr)
    (today : PyStr) (commands manual_learnings : List PyStr) :
    (api_key = [] →
      generate_daily_summary api_key http today commands manual_learnings =
        generate_fallback_summary today commands manual_learnings)
    ∧ (filter_commands commands = [] → manual_learnings = [] →
      generate_daily_summary api_key http today commands manual_learnings =
        generate_fallback_summary today commands manual_learnings)
    ∧ (http = none →
      generate_daily_summary api_key http today commands manual_learnings =
        generate_fallback_summary today commands manual_learnings) := by
  refine ⟨?_, ?_, ?_⟩
  · intro h
    unfold generate_daily_summary
    simp [h]
  · intro h1 h2
    unfold generate_daily_summary
    simp [h1, h2]
  · intro h
    subst h
    unfold generate_daily_summary
    split
    · rfl
    · simp only []
      split
      · rfl
      · rfl

/-- Concrete instantiation of `generate_daily_summary_fallback`. -/
theorem generate_daily_summary_fallback_witness :
    generate_daily_summary [] (some (("x").toList)) [] [] [] =
      generate_fallback_summary [] [] []
    ∧ generate_daily_summary (("k").toList) (some (("x").toList)) [] [] [] =
      generate_fallback_summary [] [] []
    ∧ generate_daily_summary (("k").toList) none []
        [("kubectl apply -f x.yaml").toList] [] =
      generate_fallback_summary [] [("kubectl apply -f x.yaml").toList] [] :=
  ⟨(generate_daily_summary_fallback [] (some (("x").toList)) [] [] []).1 rfl,
   (generate_daily_summary_fallback (("k").toList) (some (("x").toList)) [] [] []).2.1
     (by decide) rfl,
   (generate_daily_summary_fallback (("k").toList) none []
     [("kubectl apply -f x.yaml").toList] []).2.2 rfl⟩

-- ---------------------------------------------------------------------------
-- db.py : the commands table
-- ---------------------------------------------------------------------------

/-- One row of the `commands` table (the timestamp column plays no role in the
properties below and is omitted). -/
structure CmdRow where
  id : Nat
  source : PyStr
  command : PyStr
  processed : Bool
deriving DecidableEq

/-- The `commands` table plus its AUTOINCREMENT counter. -/
structure CmdState where
  rows : List CmdRow
  next_id : Nat
deriving DecidableEq

/-- `db.store_raw_command`: the `SELECT id FROM commands WHERE command = ? AND
processed = 0` probe followed by the guarded `INSERT`. -/
def store_raw_command (source command : PyStr) (s : CmdState) : CmdState :=
  match s.rows.find? (fun r => r.command == command && r.processed == false) with
  | some _ => s
  | none =>
    { rows := s.rows ++ [{ id := s.next_id, source := source,
                           command := command, processed := false }],
      next_id := s.next_id + 1 }

/-- `db.mark_commands_processed`: `UPDATE commands SET processed = 1 WHERE id
IN (…)`, with the early return on an empty id list. -/
def mark_commands_processed (command_ids : List Nat) (s : CmdState) : CmdState :=
  if command_ids = [] then s
  else { s with rows := s.rows.map fun r =>
           if command_ids.contains r.id then { r with processed := true } else r }

/-- States reachable through the command-table operations; `init_db` creates
the empty table (AUTOINCREMENT row ids start at 1). -/
inductive CmdReachable : CmdState → Prop
  | init : CmdReachable ⟨[], 1⟩
  | store (source command : PyStr) {s : CmdState} :
      CmdReachable s → CmdReachable (store_raw_command source command s)
  | mark (ids : List Nat) {s : CmdState} :
      CmdReachable s → CmdReachable (mark_commands_processed ids s)

/-- The number of unprocessed rows carrying the given command text. -/
def countUnprocessed (command : PyStr) (rows : List CmdRow) : Nat :=
  rows.countP fun r => r.command == command && r.processed == false

theorem store_raw_command_of_some {src command : PyStr} {s : CmdState} {r : CmdRow}
    (h : s.rows.find? (fun r => r.command == command && r.processed == false)
      = some r) :
    store_raw_command src command s = s := by
  unfold store_raw_command
  rw [h]

theorem store_raw_command_of_none {src command : PyStr} {s : CmdState}
    (h : s.rows.find? (fun r => r.command == command && r.processed == false)
      = none) :
    store_raw_command src command s =
      { rows := s.rows ++ [{ id := s.next_id, source := src, command := command,
                             processed := false }],
        next_id := s.next_id + 1 } := by
  unfold store_raw_command
  rw [h]

theorem countUnprocessed_le_one {s : CmdState} (h : CmdReachable s) :
    ∀ cmd, countUnprocessed cmd s.rows ≤ 1 := by
  induction h with
  | init => intro cmd; simp [countUnprocessed]
  | @store src command s' hr ih =>
    intro cmd
    cases hf : s'.rows.find?
        (fun r => r.command == command && r.processed == false) with
    | some r => rw [store_raw_command_of_some hf]; exact ih cmd
    | none =>
      rw [store_raw_command_of_none hf]
      simp only [countUnprocessed, List.countP_append, List.countP_cons,
        List.countP_nil]
      by_cases hc : command = cmd
      · rw [← hc]
        rw [List.countP_eq_zero.mpr (List.find?_eq_none.mp hf)]
        simp
      · have := ih cmd
        simp only [countUnprocessed] at this
        simpa [hc] using this
  | @mark ids s' hr ih =>
    intro cmd
    unfold mark_commands_processed
    split
    · exact ih cmd
    · simp only [countUnprocessed, List.countP_map]
      refine le_trans (List.countP_mono_left ?_) (ih cmd)
      intro r hr2 hp
      by_cases hin : r.id ∈ ids
      · simp [hin] at hp
      · simp [hin] at hp
        simp [hp.1, hp.2]

theorem store_raw_command_noop {src cmd : PyStr} {s : CmdState}
    (h : 0 < countUnprocessed cmd s.rows) :
    store_raw_command src cmd s = s := by
  cases hf : s.rows.find? (fun r => r.command == cmd && r.processed == false) with
  | some r => exact store_raw_command_of_some hf
  | none =>
    exfalso
    rw [countUnprocessed, List.countP_eq_zero.mpr (List.find?_eq_none.mp hf)] at h
    exact Nat.lt_irrefl 0 h

theorem countUnprocessed_mark_self {cmd : PyStr} {s : CmdState} {r : CmdRow}
    (hle : countUnprocessed cmd s.rows ≤ 1) (hmem : r ∈ s.rows)
    (hcmd : r.command = cmd) (hproc : r.processed = false) :
    countUnprocessed cmd (mark_commands_processed [r.id] s).rows = 0 := by
  have hpred : (r.command == cmd && r.processed == false) = true := by
    simp [hcmd, hproc]
  have hcount1 : List.countP
      (fun x => x.command == cmd && x.processed == false) s.rows = 1 := by
    have hpos : 0 < List.countP
        (fun x => x.command == cmd && x.processed == false) s.rows :=
      List.countP_pos_iff.mpr ⟨r, hmem, hpred⟩
    simp only [countUnprocessed] at hle
    omega
  have hfl : (s.rows.filter
      (fun x => x.command == cmd && x.processed == false)).length = 1 := by
    rw [← List.countP_eq_length_filter]
    exact hcount1
  obtain ⟨a, ha⟩ := List.length_eq_one.mp hfl
  have hra : r = a := by
    have hrf : r ∈ s.rows.filter
        (fun x => x.command == cmd && x.processed == false) :=
      List.mem_filter.mpr ⟨hmem, hpred⟩
    rw [ha] at hrf
    simpa using hrf
  unfold mark_commands_processed
  rw [if_neg (by simp)]
  simp only [countUnprocessed]
  rw [List.countP_eq_zero]
  intro y hy
  rcases List.mem_map.mp hy with ⟨x, hx, rfl⟩
  by_cases hxid : x.id = r.id
  · simp [hxid]
  · simp [hxid]
    intro hxc
    cases hb : x.processed with
    | true => rfl
    | false =>
      exfalso
      have hpx : (x.command == cmd && x.processed == false) = true := by
        simp [hxc, hb]
      have hxf : x ∈ s.rows.filter
          (fun z => z.command == cmd && z.processed == false) :=
        List.mem_filter.mpr ⟨hx, hpx⟩
      rw [ha] at hxf
      have hxa : x = a := by simpa using hxf
      exact hxid (by rw [hxa, ← hra])

/-- C1: at every reachable store state no two unprocessed rows share command
text; calling `store_raw_command` twice with text that already has an
unprocessed row leaves exactly one unprocessed row with that text; and once
that row is marked processed via `mark_commands_processed`, a further call
with the same text inserts a new row. -/
theorem commands_dedup :
    (∀ s : CmdState, CmdReachable s → ∀ cmd, countUnprocessed cmd s.rows ≤ 1)
    ∧ (∀ (s : CmdState) (src1 src2 cmd : PyStr), CmdReachable s →
        1 ≤ countUnprocessed cmd s.rows →
        countUnprocessed cmd
          (store_raw_command src2 cmd (store_raw_command src1 cmd s)).rows = 1)
    ∧ (∀ (s : CmdState) (r : CmdRow) (src cmd : PyStr), CmdReachable s →
        r ∈ s.rows → r.command = cmd → r.processed = false →
        (store_raw_command src cmd (mark_commands_processed [r.id] s)).rows.length
          = (mark_commands_processed [r.id] s).rows.length + 1) := by
  refine ⟨fun s h => countUnprocessed_le_one h, ?_, ?_⟩
  · intro s src1 src2 cmd h hge
    rw [store_raw_command_noop hge, store_raw_command_noop hge]
    exact le_antisymm (countUnprocessed_le_one h cmd) hge
  · intro s r src cmd h hmem hcmd hproc
    have h0 := countUnprocessed_mark_self (countUnprocessed_le_one h cmd)
      hmem hcmd hproc
    have hf : (mark_commands_processed [r.id] s).rows.find?
        (fun x => x.command == cmd && x.processed == false) = none := by
      rw [List.find?_eq_none]
      simp only [countUnprocessed] at h0
      exact List.countP_eq_zero.mp h0
    rw [store_raw_command_of_none hf]
    simp

/-- Concrete instantiation of `commands_dedup`. -/
theorem commands_dedup_witness :
    countUnprocessed (("make test").toList)
      (store_raw_command (("zsh_history").toList) (("make test").toList)
        ⟨[], 1⟩).rows ≤ 1
    ∧ countUnprocessed (("make test").toList)
        (store_raw_command (("bash_history").toList) (("make test").toList)
          (store_raw_command (("bash_history").toList) (("make test").toList)
            (store_raw_command (("zsh_history").toList) (("make test").toList)
              ⟨[], 1⟩))).rows = 1
    ∧ (store_raw_command (("zsh_history").toList) (("make test").toList)
        (mark_commands_processed [1]
          (store_raw_command (("zsh_history").toList) (("make test").toList)
            ⟨[], 1⟩))).rows.length
      = (mark_commands_processed [1]
          (store_raw_command (("zsh_history").toList) (("make test").toList)
            ⟨[], 1⟩)).rows.length + 1 :=
  ⟨commands_dedup.1 _ (CmdReachable.store _ _ CmdReachable.init) _,
   commands_dedup.2.1 _ _ _ _ (CmdReachable.store _ _ CmdReachable.init)
     (by decide),
   commands_dedup.2.2 _
     ⟨1, ("zsh_history").toList, ("make test").toList, false⟩ _ _
     (CmdReachable.store _ _ CmdReachable.init) (by decide) rfl rfl⟩

-- ---------------------------------------------------------------------------
-- json.dumps / json.loads on lists of strings
-- ---------------------------------------------------------------------------

/-- Lower-case hexadecimal digit (`"%04x"` formatting uses lower case). -/
def hexDig (n : Nat) : Char :=
  if n < 10 then Char.ofNat (48 + n) else Char.ofNat (87 + n)

/-- Four-digit lower-case hex rendering of `n < 0x10000` (`\uXXXX`). -/
def hex4 (n : Nat) : List Char :=
  [hexDig (n / 4096 % 16), hexDig (n / 256 % 16), hexDig (n / 16 % 16),
   hexDig (n % 16)]

/-- `json.dumps` escaping of one character with the default
`ensure_ascii=True`: short escapes for the two specials and the five named
control characters, `\uXXXX` for other control characters and all non-ASCII
code points, with a UTF-16 surrogate pair for code points above `0xFFFF`. -/
def escChar (c : Char) : List Char :=
  if c = '"' then ['\\', '"']
  else if c = '\\' then ['\\', '\\']
  else if c = '\x08' then ['\\', 'b']
  else if c = '\x0c' then ['\\', 'f']
  else if c = '\n' then ['\\', 'n']
  else if c = '\x0d' then ['\\', 'r']
  else if c = '\t' then ['\\', 't']
  else if c.toNat < 0x20 then '\\' :: 'u' :: hex4 c.toNat
  else if c.toNat ≤ 0x7e then [c]
  else if c.toNat < 0x10000 then '\\' :: 'u' :: hex4 c.toNat
  else
    '\\' :: 'u' :: hex4 (0xd800 + (c.toNat - 0x10000) / 0x400)
      ++ '\\' :: 'u' :: hex4 (0xdc00 + (c.toNat - 0x10000) % 0x400)

/-- A JSON string literal for `s`. -/
def encodeStr (s : PyStr) : PyStr := '"' :: (s.map escChar).flatten ++ ['"']

/-- Encoded items joined with `", "` (the `json.dumps` default separator). -/
def joinItems : List PyStr → PyStr
  | [] => []
  | [t] => encodeStr t
  | t :: ts => encodeStr t ++ ',' :: ' ' :: joinItems ts

/-- `json.dumps(tags)` for a list of strings (as stored in the `tags` column). -/
def json_dumps_strlist (tags : List PyStr) : PyStr :=
  '[' :: joinItems tags ++ [']']

/-- Numeric value of one hex digit (json.loads accepts both cases). -/
def hexVal (c : Char) : Option Nat :=
  if '0' ≤ c ∧ c ≤ '9' then some (c.toNat - 48)
  else if 'a' ≤ c ∧ c ≤ 'f' then some (c.toNat - 87)
  else if 'A' ≤ c ∧ c ≤ 'F' then some (c.toNat - 55)
  else none

/-- Value of a four-digit hex group. -/
def hexVal4 (h1 h2 h3 h4 : Char) : Option Nat :=
  match hexVal h1, hexVal h2, hexVal h3, hexVal h4 with
  | some a, some b, some c, some d => some (4096 * a + 256 * b + 16 * c + d)
  | _, _, _, _ => none

/-- The short escapes accepted by `json.loads`. -/
def escCode (c : Char) : Option Char :=
  if c = '"' then some '"'
  else if c = '\\' then some '\\'
  else if c = '/' then some '/'
  else if c = 'b' then some '\x08'
  else if c = 'f' then some '\x0c'
  else if c = 'n' then some '\n'
  else if c = 'r' then some '\x0d'
  else if c = 't' then some '\t'
  else none


/-- Parse one `\uXXXX` hex group (the four digits after `\u`). -/
def parseU : List Char → Option (Nat × List Char)
  | h1 :: h2 :: h3 :: h4 :: rest =>
    match hexVal4 h1 h2 h3 h4 with
    | some n => some (n, rest)
    | none => none
  | _ => none

/-- Decode the escape sequence following a backslash: returns the denoted
character and the remaining input.  A `\uXXXX` high surrogate must be followed
by a low surrogate (CPython would keep a lone surrogate in its `str`; a Lean
`Char` cannot represent one, and the encoder never emits one). -/
def decodeEscape (l : List Char) : Option (Char × List Char) :=
  match l with
  | [] => none
  | e :: rest2 =>
    if e = 'u' then
      match parseU rest2 with
      | none => none
      | some (n, rest3) =>
        if 0xd800 ≤ n ∧ n ≤ 0xdbff then
          match rest3 with
          | b1 :: u1 :: rest3a =>
            if b1 = '\\' ∧ u1 = 'u' then
              match parseU rest3a with
              | none => none
              | some (m, rest4) =>
                if 0xdc00 ≤ m ∧ m ≤ 0xdfff then
                  some (Char.ofNat
                    (0x10000 + (n - 0xd800) * 0x400 + (m - 0xdc00)), rest4)
                else none
            else none
          | _ => none
        else if 0xdc00 ≤ n ∧ n ≤ 0xdfff then none
        else some (Char.ofNat n, rest3)
    else
      match escCode e with
      | none => none
      | some d => some (d, rest2)

/-- Parse the body of a JSON string literal (after the opening quote): returns
the decoded characters and the input remaining after the closing quote.  One
unit of fuel is spent per decoded character, so any fuel above the input
length is enough; every call site supplies that. -/
def decodeStrBody : Nat → List Char → Option (PyStr × List Char)
  | 0, _ => none
  | _ + 1, [] => none
  | fuel + 1, c :: rest =>
    if c = '"' then some ([], rest)
    else if c = '\\' then
      match decodeEscape rest with
      | none => none
      | some (d, r2) =>
        match decodeStrBody fuel r2 with
        | none => none
        | some (s, r) => some (d :: s, r)
    else
      match decodeStrBody fuel rest with
      | none => none
      | some (s, r) => some (c :: s, r)

/-- JSON insignificant whitespace. -/
def skipWs : List Char → List Char :=
  List.dropWhile (fun c => c = ' ' || c = '\t' || c = '\n' || c = '\x0d')

/-- Parse the comma-separated string elements of a JSON array up to and
including the closing bracket; the whole input must then be exhausted.  The
fuel only bounds the number of elements and is in excess at every call site. -/
def parseItems : Nat → List Char → Option (List PyStr)
  | 0, _ => none
  | fuel + 1, l =>
    match l with
    | '"' :: rest =>
      match decodeStrBody (rest.length + 1) rest with
      | none => none
      | some (s, r) =>
        match skipWs r with
        | ']' :: r2 => if skipWs r2 = [] then some [s] else none
        | ',' :: r2 =>
          match parseItems fuel (skipWs r2) with
          | none => none
          | some ss => some (s :: ss)
        | _ => none
    | _ => none

/-- `json.loads` restricted to documents denoting a list of strings. -/
def json_loads_strlist (input : PyStr) : Option (List PyStr) :=
  match skipWs input with
  | '[' :: rest =>
    match skipWs rest with
    | ']' :: r2 => if skipWs r2 = [] then some [] else none
    | r => parseItems (r.length + 1) r
  | _ => none

theorem hexVal_hexDig : ∀ k, k < 16 → hexVal (hexDig k) = some k := by decide

theorem hexVal4_hex4 (n : Nat) (h : n < 65536) :
    hexVal4 (hexDig (n / 4096 % 16)) (hexDig (n / 256 % 16))
      (hexDig (n / 16 % 16)) (hexDig (n % 16)) = some n := by
  rw [hexVal4, hexVal_hexDig _ (by omega), hexVal_hexDig _ (by omega),
    hexVal_hexDig _ (by omega), hexVal_hexDig _ (by omega)]
  have harith : 4096 * (n / 4096 % 16) + 256 * (n / 256 % 16)
      + 16 * (n / 16 % 16) + n % 16 = n := by omega
  simp [harith]

theorem char_toNat_valid (c : Char) :
    c.toNat < 1114112 ∧ ¬(55296 ≤ c.toNat ∧ c.toNat ≤ 57343) := by
  have h : Nat.isValidChar c.toNat := c.valid
  rcases h with h | ⟨h1, h2⟩ <;> constructor <;> omega

theorem parseU_hex4 (n : Nat) (tail : List Char) (h : n < 65536) :
    parseU (hex4 n ++ tail) = some (n, tail) := by
  simp [hex4, parseU, hexVal4_hex4 n h]

theorem decodeEscape_u (n : Nat) (tail : List Char) (hb : n < 65536)
    (hs1 : ¬(55296 ≤ n ∧ n ≤ 56319)) (hs2 : ¬(56320 ≤ n ∧ n ≤ 57343)) :
    decodeEscape ('u' :: (hex4 n ++ tail)) = some (Char.ofNat n, tail) := by
  simp [decodeEscape, parseU_hex4 n tail hb, hs1, hs2]

set_option maxRecDepth 4000 in
theorem decodeEscape_surrogate (v : Nat) (tail : List Char) (hv : v < 1048576) :
    decodeEscape ('u' :: (hex4 (55296 + v / 1024)
      ++ '\\' :: 'u' :: (hex4 (56320 + v % 1024) ++ tail)))
      = some (Char.ofNat (65536 + v), tail) := by
  have hhi : (55296 + v / 1024 : Nat) < 65536 := by omega
  have hlo : (56320 + v % 1024 : Nat) < 65536 := by omega
  have hhir : 55296 ≤ 55296 + v / 1024 ∧ 55296 + v / 1024 ≤ 56319 := by
    constructor <;> omega
  have hlor : 56320 ≤ 56320 + v % 1024 ∧ 56320 + v % 1024 ≤ 57343 := by
    constructor <;> omega
  have harg : 65536 + (55296 + v / 1024 - 55296) * 1024
      + (56320 + v % 1024 - 56320) = 65536 + v := by omega
  simp [decodeEscape, parseU_hex4 _ _ hhi, parseU_hex4 _ _ hlo, hhir, hlor,
    harg]
  exact congrArg Char.ofNat (by omega)

theorem decodeStrBody_backslash (fuel : Nat) (rest : List Char) :
    decodeStrBody (fuel + 1) ('\\' :: rest) =
      match decodeEscape rest with
      | none => none
      | some (d, r2) =>
        match decodeStrBody fuel r2 with
        | none => none
        | some (s, r) => some (d :: s, r) := rfl

theorem decodeStrBody_other (fuel : Nat) (c : Char) (rest : List Char)
    (h1 : ¬ c = '"') (h2 : ¬ c = '\\') :
    decodeStrBody (fuel + 1) (c :: rest) =
      match decodeStrBody fuel rest with
      | none => none
      | some (s, r) => some (c :: s, r) := by
  simp only [decodeStrBody]
  rw [if_neg h1, if_neg h2]

set_option maxHeartbeats 1000000 in
theorem decodeStrBody_step (c : Char) (tail : List Char) (fuel : Nat) :
    decodeStrBody (fuel + 1) (escChar c ++ tail) =
      match decodeStrBody fuel tail with
      | none => none
      | some (s, r) => some (c :: s, r) := by
  by_cases h1 : c = '"'
  · subst h1; rfl
  by_cases h2 : c = '\\'
  · subst h2; rfl
  by_cases h3 : c = '\x08'
  · subst h3; rfl
  by_cases h4 : c = '\x0c'
  · subst h4; rfl
  by_cases h5 : c = '\n'
  · subst h5; rfl
  by_cases h6 : c = '\x0d'
  · subst h6; rfl
  by_cases h7 : c = '\t'
  · subst h7; rfl
  by_cases h8 : c.toNat < 0x20
  · have hesc : escChar c = '\\' :: 'u' :: hex4 c.toNat := by
      unfold escChar
      rw [if_neg h1, if_neg h2, if_neg h3, if_neg h4, if_neg h5, if_neg h6,
        if_neg h7, if_pos h8]
    have hs1 : ¬(55296 ≤ c.toNat ∧ c.toNat ≤ 56319) := by omega
    have hs2 : ¬(56320 ≤ c.toNat ∧ c.toNat ≤ 57343) := by omega
    rw [hesc, List.cons_append, List.cons_append, decodeStrBody_backslash,
      decodeEscape_u c.toNat tail (by omega) hs1 hs2, Char.ofNat_toNat]
  by_cases h9 : c.toNat ≤ 0x7e
  · have hesc : escChar c = [c] := by
      unfold escChar
      rw [if_neg h1, if_neg h2, if_neg h3, if_neg h4, if_neg h5, if_neg h6,
        if_neg h7, if_neg h8, if_pos h9]
    rw [hesc, List.singleton_append]
    exact decodeStrBody_other fuel c tail h1 h2
  by_cases h10 : c.toNat < 0x10000
  · have hesc : escChar c = '\\' :: 'u' :: hex4 c.toNat := by
      unfold escChar
      rw [if_neg h1, if_neg h2, if_neg h3, if_neg h4, if_neg h5, if_neg h6,
        if_neg h7, if_neg h8, if_neg h9, if_pos h10]
    have hvalid := (char_toNat_valid c).2
    have hs1 : ¬(55296 ≤ c.toNat ∧ c.toNat ≤ 56319) := by omega
    have hs2 : ¬(56320 ≤ c.toNat ∧ c.toNat ≤ 57343) := by omega
    rw [hesc, List.cons_append, List.cons_append, decodeStrBody_backslash,
      decodeEscape_u c.toNat tail (by omega) hs1 hs2, Char.ofNat_toNat]
  · have hesc : escChar c = '\\' :: 'u' :: (hex4 (55296 + (c.toNat - 65536) / 1024)
        ++ '\\' :: 'u' :: hex4 (56320 + (c.toNat - 65536) % 1024)) := by
      unfold escChar
      rw [if_neg h1, if_neg h2, if_neg h3, if_neg h4, if_neg h5, if_neg h6,
        if_neg h7, if_neg h8, if_neg h9, if_neg h10]
      simp
    have hmax := (char_toNat_valid c).1
    have hv : c.toNat - 65536 < 1048576 := by omega
    have harg : 65536 + (c.toNat - 65536) = c.toNat := by omega
    rw [hesc, List.cons_append, List.cons_append, List.append_assoc,
      List.cons_append, List.cons_append, decodeStrBody_backslash,
      decodeEscape_surrogate (c.toNat - 65536) tail hv, harg, Char.ofNat_toNat]

set_option maxHeartbeats 1000000 in
theorem one_le_escChar_length (c : Char) : 1 ≤ (escChar c).length := by
  unfold escChar
  split_ifs <;> simp

theorem length_le_escBody (s : PyStr) :
    s.length ≤ ((s.map escChar).flatten).length := by
  induction s with
  | nil => simp
  | cons c t ih =>
    rw [List.map_cons, List.flatten_cons, List.length_append, List.length_cons]
    have := one_le_escChar_length c
    omega

theorem decodeStrBody_encodeBody (s : PyStr) : ∀ (rest : List Char) (fuel : Nat),
    s.length < fuel →
    decodeStrBody fuel ((s.map escChar).flatten ++ '"' :: rest) = some (s, rest) := by
  induction s with
  | nil =>
    intro rest fuel hf
    cases fuel with
    | zero => omega
    | succ f => rfl
  | cons c t ih =>
    intro rest fuel hf
    cases fuel with
    | zero => omega
    | succ f =>
      rw [List.map_cons, List.flatten_cons, List.append_assoc,
        decodeStrBody_step,
        ih rest f (by simp only [List.length_cons] at hf; omega)]

theorem parseItems_quote (f : Nat) (rest : List Char) :
    parseItems (f + 1) ('"' :: rest) =
      match decodeStrBody (rest.length + 1) rest with
      | none => none
      | some (s, r) =>
        match skipWs r with
        | ']' :: r2 => if skipWs r2 = [] then some [s] else none
        | ',' :: r2 =>
          match parseItems f (skipWs r2) with
          | none => none
          | some ss => some (s :: ss)
        | _ => none := rfl

theorem joinItems_quote_head (x : PyStr) (xs : List PyStr) :
    ∃ rest, joinItems (x :: xs) = '"' :: rest := by
  cases xs with
  | nil =>
    exact ⟨(x.map escChar).flatten ++ ['"'], by simp [joinItems, encodeStr]⟩
  | cons y ys =>
    exact ⟨(x.map escChar).flatten ++ '"' :: ',' :: ' ' :: joinItems (y :: ys),
      by simp [joinItems, encodeStr]⟩

theorem items_le_joinItems (ts : List PyStr) :
    ts.length ≤ (joinItems ts).length := by
  induction ts with
  | nil => simp [joinItems]
  | cons t ts ih =>
    cases ts with
    | nil => simp [joinItems, encodeStr]
    | cons t2 ts2 =>
      simp only [joinItems, encodeStr] at ih ⊢
      simp only [List.length_cons, List.length_append, List.cons_append,
        List.length_cons] at ih ⊢
      omega

theorem parseItems_joinItems (ts : List PyStr) : ts ≠ [] →
    ∀ fuel, ts.length ≤ fuel →
    parseItems fuel (joinItems ts ++ [']']) = some ts := by
  induction ts with
  | nil => intro h; exact absurd rfl h
  | cons t ts ih =>
    intro _ fuel hf
    cases fuel with
    | zero => exact absurd hf (by simp)
    | succ f =>
      cases ts with
      | nil =>
        have hshape : joinItems [t] ++ [']']
            = '"' :: ((t.map escChar).flatten ++ '"' :: [']']) := by
          simp [joinItems, encodeStr]
        rw [hshape, parseItems_quote,
          decodeStrBody_encodeBody t [']'] _ (by
            have := length_le_escBody t
            simp only [List.length_append, List.length_cons]
            omega)]
        rfl
      | cons t2 ts2 =>
        have hshape : joinItems (t :: t2 :: ts2) ++ [']']
            = '"' :: ((t.map escChar).flatten ++ '"' ::
                (',' :: ' ' :: (joinItems (t2 :: ts2) ++ [']']))) := by
          simp [joinItems, encodeStr]
        rw [hshape, parseItems_quote,
          decodeStrBody_encodeBody t _ _ (by
            have := length_le_escBody t
            simp only [List.length_append, List.length_cons]
            omega)]
        show (match parseItems f (skipWs (joinItems (t2 :: ts2) ++ [']'])) with
          | none => none
          | some ss => some (t :: ss)) = some (t :: t2 :: ts2)
        obtain ⟨r0, hq⟩ := joinItems_quote_head t2 ts2
        have hskip : skipWs (joinItems (t2 :: ts2) ++ [']'])
            = joinItems (t2 :: ts2) ++ [']'] := by
          rw [hq]; rfl
        rw [hskip, ih (by simp) f
          (by simp only [List.length_cons] at hf ⊢; omega)]

/-- Serialising a tag list with `json.dumps` and parsing it back with
`json.loads` returns exactly the original list. -/
theorem json_round_trip (ts : List PyStr) :
    json_loads_strlist (json_dumps_strlist ts) = some ts := by
  cases ts with
  | nil => rfl
  | cons t ts2 =>
    have hmain := parseItems_joinItems (t :: ts2) (by simp)
      ((joinItems (t :: ts2) ++ [']']).length + 1)
      (by
        have h1 := items_le_joinItems (t :: ts2)
        have h2 : (joinItems (t :: ts2) ++ [']']).length
            = (joinItems (t :: ts2)).length + 1 := by simp
        omega)
    obtain ⟨r0, hq⟩ := joinItems_quote_head t ts2
    unfold json_dumps_strlist json_loads_strlist
    rw [hq] at hmain ⊢
    show parseItems ((('"' :: r0) ++ [']']).length + 1) (('"' :: r0) ++ [']'])
      = some (t :: ts2)
    exact hmain

-- ---------------------------------------------------------------------------
-- db.py : the learnings table
-- ---------------------------------------------------------------------------

/-- One row of the `learnings` table.  Timestamps are `julianday` instants
modelled as integers (only their ordered additive structure is used). -/
structure Learning where
  id : Nat
  content : PyStr
  timestamp : ℤ
  tags : PyStr
  last_reviewed : ℤ
  review_count : Nat
deriving DecidableEq

/-- The `learnings` table plus its AUTOINCREMENT counter. -/
structure LearnState where
  rows : List Learning
  next_id : Nat
deriving DecidableEq

/-- `db.add_learning`: inserts a row whose `timestamp` and `last_reviewed`
columns take their `CURRENT_TIMESTAMP` defaults (`now`), whose `tags` column
holds `json.dumps(tags)`, and returns `cursor.lastrowid`. -/
def add_learning (content : PyStr) (tags : List PyStr) (now : ℤ)
    (s : LearnState) : Nat × LearnState :=
  (s.next_id,
   { rows := s.rows ++
       [{ id := s.next_id, content := content, timestamp := now,
          tags := json_dumps_strlist tags, last_reviewed := now,
          review_count := 0 }],
     next_id := s.next_id + 1 })

/-- The `WHERE julianday('now') - julianday(last_reviewed) > 3` test of
`db.get_due_flashcard`. -/
def flashcard_due (now : ℤ) (l : Learning) : Bool :=
  decide (3 < now - l.last_reviewed)

/-- `ORDER BY last_reviewed ASC LIMIT 1`: the first row with minimal
`last_reviewed`. -/
def minByLastReviewed : List Learning → Option Learning
  | [] => none
  | l :: rest =>
    match minByLastReviewed rest with
    | none => some l
    | some m => if l.last_reviewed ≤ m.last_reviewed then some l else some m

/-- `db.get_due_flashcard`. -/
def get_due_flashcard (now : ℤ) (s : LearnState) : Option Learning :=
  minByLastReviewed (s.rows.filter (flashcard_due now))

/-- Insert into a list kept in descending `timestamp` order. -/
def insertByTsDesc (l : Learning) : List Learning → List Learning
  | [] => [l]
  | h :: t =>
    if h.timestamp < l.timestamp then l :: h :: t else h :: insertByTsDesc l t

/-- `ORDER BY timestamp DESC` as an insertion sort. -/
def sortByTsDesc : List Learning → List Learning
  | [] => []
  | h :: t => insertByTsDesc h (sortByTsDesc t)

/-- `db.get_learnings_since`: rows with
`julianday('now') - julianday(timestamp) <= days`, newest first. -/
def get_learnings_since (days : ℤ) (now : ℤ) (s : LearnState) : List Learning :=
  sortByTsDesc (s.rows.filter fun l => decide (now - l.timestamp ≤ days))

/-- Result of the `devlog learn` handler: the final store state, the id echoed
to the user on success, and whether the process exited non-zero. -/
structure HandleLearnResult where
  state : LearnState
  returned_id : Option Nat
  exit_nonzero : Bool
deriving DecidableEq

/-- `devlog.handle_learn`: an empty `content` prints an error and exits with
status 1 before touching the store; otherwise the `--tags` argument is split
on commas (empty argument meaning no tags) and the row is inserted. -/
def handle_learn (content tags_arg : PyStr) (now : ℤ)
    (s : LearnState) : HandleLearnResult :=
  if content = [] then { state := s, returned_id := none, exit_nonzero := true }
  else
    let tags := if tags_arg = [] then [] else pySplitSep ',' tags_arg
    let (row_id, s2) := add_learning content tags now s
    { state := s2, returned_id := some row_id, exit_nonzero := false }

theorem minByLastReviewed_spec (ls : List Learning) :
    (minByLastReviewed ls = none ↔ ls = [])
    ∧ (∀ m, minByLastReviewed ls = some m →
        m ∈ ls ∧ ∀ x ∈ ls, m.last_reviewed ≤ x.last_reviewed) := by
  induction ls with
  | nil => simp [minByLastReviewed]
  | cons l rest ih =>
    constructor
    · cases h : minByLastReviewed rest with
      | none => simp [minByLastReviewed, h]
      | some m2 => simp only [minByLastReviewed, h]; split <;> simp
    · intro m hm
      cases h : minByLastReviewed rest with
      | none =>
        have hrest : rest = [] := (ih.1).mp h
        subst hrest
        simp only [minByLastReviewed] at hm
        cases hm
        simp
      | some m2 =>
        obtain ⟨hmem2, hmin2⟩ := ih.2 m2 h
        simp only [minByLastReviewed, h] at hm
        by_cases hc : l.last_reviewed ≤ m2.last_reviewed
        · rw [if_pos hc] at hm
          cases hm
          refine ⟨List.mem_cons_self _ _, ?_⟩
          intro x hx
          rcases List.mem_cons.mp hx with rfl | hx2
          · exact le_refl _
          · exact le_trans hc (hmin2 x hx2)
        · rw [if_neg hc] at hm
          cases hm
          refine ⟨List.mem_cons_of_mem _ hmem2, ?_⟩
          intro x hx
          rcases List.mem_cons.mp hx with rfl | hx2
          · exact le_of_lt (lt_of_not_le hc)
          · exact hmin2 x hx2

/-- C2: `get_due_flashcard` returns nothing when every learning was reviewed
within the last 3 days; otherwise it returns an eligible learning with the
oldest `last_reviewed` value, and it never returns a learning reviewed less
than 3 days ago. -/
theorem get_due_flashcard_spec (now : ℤ) (s : LearnState) :
    ((∀ l ∈ s.rows, now - l.last_reviewed ≤ 3) →
      get_due_flashcard now s = none)
    ∧ (∀ l, get_due_flashcard now s = some l →
        l ∈ s.rows ∧ 3 < now - l.last_reviewed
          ∧ ∀ x ∈ s.rows, 3 < now - x.last_reviewed →
              l.last_reviewed ≤ x.last_reviewed)
    ∧ ((∃ l ∈ s.rows, 3 < now - l.last_reviewed) →
        ∃ l, get_due_flashcard now s = some l)
    ∧ (∀ l, get_due_flashcard now s = some l →
        ¬(now - l.last_reviewed < 3)) := by
  have hspec := minByLastReviewed_spec (s.rows.filter (flashcard_due now))
  refine ⟨?_, ?_, ?_, ?_⟩
  · intro hall
    unfold get_due_flashcard
    have hnil : s.rows.filter (flashcard_due now) = [] :=
      List.filter_eq_nil_iff.mpr (fun a ha => by
        simp only [flashcard_due, decide_eq_true_eq]
        have := hall a ha
        omega)
    rw [hnil]
    rfl
  · intro l hl
    obtain ⟨hmem, hmin⟩ := hspec.2 l hl
    have hmf := List.mem_filter.mp hmem
    refine ⟨hmf.1, by simpa [flashcard_due] using hmf.2, ?_⟩
    intro x hx hdue
    exact hmin x (List.mem_filter.mpr ⟨hx, by simpa [flashcard_due] using hdue⟩)
  · rintro ⟨l, hl, hdue⟩
    cases h : get_due_flashcard now s with
    | some m => exact ⟨m, rfl⟩
    | none =>
      exfalso
      have hnil : s.rows.filter (flashcard_due now) = [] := (hspec.1).mp h
      have hmem : l ∈ s.rows.filter (flashcard_due now) :=
        List.mem_filter.mpr ⟨hl, by simpa [flashcard_due] using hdue⟩
      rw [hnil] at hmem
      simp at hmem
  · intro l hl
    obtain ⟨hmem, -⟩ := hspec.2 l hl
    have h2 := (List.mem_filter.mp hmem).2
    simp only [flashcard_due, decide_eq_true_eq] at h2
    omega

/-- Concrete instantiation of `get_due_flashcard_spec`. -/
theorem get_due_flashcard_spec_witness :
    get_due_flashcard 1 ⟨[⟨1, [], 0, [], 0, 0⟩], 2⟩ = none
    ∧ (∃ l, get_due_flashcard 10 ⟨[⟨1, [], 0, [], 0, 0⟩], 2⟩ = some l)
    ∧ ((⟨1, [], 0, [], 0, 0⟩ : Learning) ∈
        ([⟨1, [], 0, [], 0, 0⟩] : List Learning)
        ∧ 3 < (10 : ℤ) - 0 ∧ ∀ x ∈ ([⟨1, [], 0, [], 0, 0⟩] : List Learning),
          3 < (10 : ℤ) - x.last_reviewed → (0 : ℤ) ≤ x.last_reviewed)
    ∧ ¬((10 : ℤ) - 0 < 3) :=
  ⟨(get_due_flashcard_spec 1 ⟨[⟨1, [], 0, [], 0, 0⟩], 2⟩).1 (by decide),
   (get_due_flashcard_spec 10 ⟨[⟨1, [], 0, [], 0, 0⟩], 2⟩).2.2.1
     ⟨⟨1, [], 0, [], 0, 0⟩, by decide, by decide⟩,
   (get_due_flashcard_spec 10 ⟨[⟨1, [], 0, [], 0, 0⟩], 2⟩).2.1
     ⟨1, [], 0, [], 0, 0⟩ (by decide),
   (get_due_flashcard_spec 10 ⟨[⟨1, [], 0, [], 0, 0⟩], 2⟩).2.2.2
     ⟨1, [], 0, [], 0, 0⟩ (by decide)⟩

theorem mem_insertByTsDesc (l x : Learning) (ls : List Learning) :
    x ∈ insertByTsDesc l ls ↔ x = l ∨ x ∈ ls := by
  induction ls with
  | nil => simp [insertByTsDesc]
  | cons h t ih =>
    simp only [insertByTsDesc]
    split
    · simp [List.mem_cons]
    · simp only [List.mem_cons, ih]
      tauto

theorem mem_sortByTsDesc (x : Learning) (ls : List Learning) :
    x ∈ sortByTsDesc ls ↔ x ∈ ls := by
  induction ls with
  | nil => simp [sortByTsDesc]
  | cons h t ih =>
    simp only [sortByTsDesc, mem_insertByTsDesc, ih, List.mem_cons]

theorem sorted_insertByTsDesc (l : Learning) (ls : List Learning)
    (h : ls.Pairwise (fun a b => b.timestamp ≤ a.timestamp)) :
    (insertByTsDesc l ls).Pairwise (fun a b => b.timestamp ≤ a.timestamp) := by
  induction ls with
  | nil => simp [insertByTsDesc]
  | cons hd t ih =>
    obtain ⟨hhd, ht⟩ := List.pairwise_cons.mp h
    simp only [insertByTsDesc]
    split
    · rename_i hlt
      refine List.pairwise_cons.mpr ⟨?_, h⟩
      intro y hy
      rcases List.mem_cons.mp hy with rfl | hy2
      · exact le_of_lt hlt
      · exact le_trans (hhd y hy2) (le_of_lt hlt)
    · rename_i hnlt
      refine List.pairwise_cons.mpr ⟨?_, ih ht⟩
      intro y hy
      rcases (mem_insertByTsDesc l y t).mp hy with rfl | hy2
      · exact not_lt.mp hnlt
      · exact hhd y hy2

theorem sorted_sortByTsDesc (ls : List Learning) :
    (sortByTsDesc ls).Pairwise (fun a b => b.timestamp ≤ a.timestamp) := by
  induction ls with
  | nil => simp [sortByTsDesc]
  | cons h t ih => exact sorted_insertByTsDesc h (sortByTsDesc t) ih

/-- C3: after `add_learning`, `get_learnings_since` with a non-negative window
contains a row whose content is the input and whose tags parse back to exactly
the input tag list, and the returned sequence is in descending creation
order. -/
theorem add_learning_roundtrip (content : PyStr) (tags : List PyStr)
    (days now : ℤ) (s : LearnState) (hc : content ≠ []) (hd : 0 ≤ days) :
    (∃ l ∈ get_learnings_since days now (add_learning content tags now s).2,
      l.content = content ∧ json_loads_strlist l.tags = some tags)
    ∧ (get_learnings_since days now
        (add_learning content tags now s).2).Pairwise
        (fun a b => b.timestamp ≤ a.timestamp) := by
  constructor
  · refine ⟨{ id := s.next_id, content := content, timestamp := now,
              tags := json_dumps_strlist tags, last_reviewed := now,
              review_count := 0 }, ?_, rfl, json_round_trip tags⟩
    unfold get_learnings_since
    rw [mem_sortByTsDesc]
    apply List.mem_filter.mpr
    constructor
    · unfold add_learning
      simp
    · simp only [decide_eq_true_eq]
      omega
  · exact sorted_sortByTsDesc _

/-- Concrete instantiation of `add_learning_roundtrip`. -/
theorem add_learning_roundtrip_witness :
    ∃ l ∈ get_learnings_since 0 0
      (add_learning (("x").toList) [("t").toList] 0 ⟨[], 1⟩).2,
      l.content = ("x").toList
        ∧ json_loads_strlist l.tags = some [("t").toList] :=
  (add_learning_roundtrip (("x").toList) [("t").toList] 0 0 ⟨[], 1⟩
    (by decide) (by decide)).1

/-- C4: `devlog learn` with empty content exits non-zero and leaves the store
untouched; with non-empty content it inserts exactly one row carrying that
content and returns the new identifier. -/
theorem handle_learn_spec (content tags_arg : PyStr) (now : ℤ)
    (s : LearnState) :
    (content = [] → handle_learn content tags_arg now s =
      { state := s, returned_id := none, exit_nonzero := true })
    ∧ (content ≠ [] → ∃ row : Learning,
        handle_learn content tags_arg now s =
          { state := { rows := s.rows ++ [row], next_id := s.next_id + 1 },
            returned_id := some s.next_id, exit_nonzero := false }
          ∧ row.content = content ∧ row.id = s.next_id) := by
  constructor
  · intro h
    unfold handle_learn
    rw [if_pos h]
  · intro h
    refine ⟨{ id := s.next_id, content := content, timestamp := now,
              tags := json_dumps_strlist
                (if tags_arg = [] then [] else pySplitSep ',' tags_arg),
              last_reviewed := now, review_count := 0 }, ?_, rfl, rfl⟩
    unfold handle_learn add_learning
    rw [if_neg h]

/-- Concrete instantiation of `handle_learn_spec`. -/
theorem handle_learn_spec_witness :
    handle_learn [] [] 0 ⟨[], 1⟩ =
      { state := ⟨[], 1⟩, returned_id := none, exit_nonzero := true }
    ∧ ∃ row : Learning,
        handle_learn (("x").toList) [] 0 ⟨[], 1⟩ =
          { state := { rows := [row], next_id := 2 },
            returned_id := some 1, exit_nonzero := false }
          ∧ row.content = ("x").toList ∧ row.id = 1 :=
  ⟨(handle_learn_spec [] [] 0 ⟨[], 1⟩).1 rfl,
   (handle_learn_spec (("x").toList) [] 0 ⟨[], 1⟩).2 (by decide)⟩

-- ---------------------------------------------------------------------------
-- collector.py : the history tail-read loop
-- ---------------------------------------------------------------------------

/-- The backward tail-read loop of `collector.collect_shell_history`, over the
raw file bytes.  `bytes` is the portion of the file not yet read, already
reversed (the Python loop seeks backward one byte at a time); `buf` is the
line buffer, accumulated in reversed order exactly as in the source; `lines`
are the lines emitted so far (each one `buffer[::-1]`).  The loop stops once
`n` lines are collected or the file start is passed, and the final non-empty
buffer is appended as one more line. -/
def tail_collect (n : Nat) : List Nat → List Nat → List (List Nat) → List (List Nat)
  | [], buf, lines => if buf = [] then lines else lines ++ [buf.reverse]
  | b :: rest, buf, lines =>
    if n ≤ lines.length then (if buf = [] then lines else lines ++ [buf.reverse])
    else if b = 10 then tail_collect n rest [] (lines ++ [buf.reverse])
    else tail_collect n rest (buf ++ [b]) lines

/-- The whole tail read: at most `n` lines off the end of `content`, produced
last line first (byte-level; UTF-8 decoding with `errors="ignore"` of each
line is orthogonal to the line structure and not modelled). -/
def collect_tail (content : List Nat) (n : Nat) : List (List Nat) :=
  tail_collect n content.reverse [] []

/-- What the loop computes when the line limit is never reached. -/
def revSegs : List Nat → List Nat → List (List Nat)
  | [], buf => if buf = [] then [] else [buf.reverse]
  | b :: rest, buf =>
    if b = 10 then buf.reverse :: revSegs rest []
    else revSegs rest (buf ++ [b])

/-- Split a byte sequence at newline bytes; a trailing newline yields a
trailing empty segment (`"a\nb\n"` gives segments `a`, `b`, `""`). -/
def splitNl : List Nat → List (List Nat)
  | [] => [[]]
  | b :: rest =>
    if b = 10 then [] :: splitNl rest
    else
      match splitNl rest with
      | [] => [[b]]
      | seg :: segs => (b :: seg) :: segs

/-- Drop the final element when it is the empty segment. -/
def dropTrailEmpty : List (List Nat) → List (List Nat)
  | [] => []
  | [x] => if x = [] then [] else [x]
  | x :: y :: rest => x :: dropTrailEmpty (y :: rest)

/-- Modelled from the spec: the lines of a byte file — one line per
newline-terminated segment, plus a final unterminated segment when the file
does not end in a newline (this is what "the last N lines" refers to). -/
def file_lines (content : List Nat) : List (List Nat) :=
  dropTrailEmpty (splitNl content)

theorem splitNl_ne_nil (l : List Nat) : splitNl l ≠ [] := by
  cases l with
  | nil => simp [splitNl]
  | cons b rest =>
    by_cases hb : b = 10
    · simp [splitNl, hb]
    · simp only [splitNl, if_neg hb]
      cases h : splitNl rest <;> simp

theorem splitNl_append_ten (a b : List Nat) :
    splitNl (a ++ 10 :: b) = splitNl a ++ splitNl b := by
  induction a with
  | nil => simp [splitNl]
  | cons x xs ih =>
    by_cases hx : x = 10
    · simp [splitNl, hx, ih]
    · simp only [List.cons_append, splitNl, if_neg hx, List.append_eq]
      cases h : splitNl xs with
      | nil => exact absurd h (splitNl_ne_nil xs)
      | cons seg segs =>
        rw [ih, h]
        simp

theorem splitNl_no_ten (l : List Nat) (h : ∀ c ∈ l, c ≠ 10) :
    splitNl l = [l] := by
  induction l with
  | nil => rfl
  | cons b rest ih =>
    have hb : b ≠ 10 := h b (by simp)
    simp only [splitNl, if_neg hb,
      ih (fun c hc => h c (List.mem_cons_of_mem _ hc))]

theorem dropTrailEmpty_cons (x : List Nat) (l : List (List Nat)) (h : l ≠ []) :
    dropTrailEmpty (x :: l) = x :: dropTrailEmpty l := by
  cases l with
  | nil => exact absurd rfl h
  | cons y rest => rfl

theorem tail_collect_eq (n : Nat) : ∀ (bytes buf : List Nat)
    (lines : List (List Nat)),
    tail_collect n bytes buf lines =
      if lines.length < n then
        lines ++ (revSegs bytes buf).take (n - lines.length)
      else if buf = [] then lines else lines ++ [buf.reverse] := by
  intro bytes
  induction bytes with
  | nil =>
    intro buf lines
    by_cases h : lines.length < n
    · rw [if_pos h]
      simp only [tail_collect, revSegs]
      split
      · simp
      · rw [List.take_of_length_le (by simp; omega)]
    · rw [if_neg h]
      rfl
  | cons b rest ih =>
    intro buf lines
    by_cases h : lines.length < n
    · rw [if_pos h]
      simp only [tail_collect]
      rw [if_neg (by omega : ¬ n ≤ lines.length)]
      by_cases hb : b = 10
      · subst hb
        rw [if_pos rfl, ih [] (lines ++ [buf.reverse])]
        simp only [revSegs, List.length_append, List.length_cons,
          List.length_nil, Nat.zero_add, Nat.add_zero, if_true, ite_true]
        by_cases h2 : lines.length + 1 < n
        · rw [if_pos h2]
          have hsplit : n - lines.length = (n - (lines.length + 1)) + 1 := by
            omega
          rw [hsplit, List.take_succ_cons]
          simp
        · rw [if_neg h2]
          have hone : n - lines.length = 1 := by omega
          rw [hone, List.take_succ_cons, List.take_zero]
      · rw [if_neg hb, ih (buf ++ [b]) lines, if_pos h]
        simp only [revSegs, if_neg hb]
    · rw [if_neg h]
      simp only [tail_collect]
      rw [if_pos (by omega)]

theorem revSegs_eq : ∀ (rbytes buf : List Nat), (∀ c ∈ buf, c ≠ 10) →
    revSegs rbytes buf
      = dropTrailEmpty ((splitNl (rbytes.reverse ++ buf.reverse)).reverse) := by
  intro rbytes
  induction rbytes with
  | nil =>
    intro buf hbuf
    simp only [revSegs, List.reverse_nil, List.nil_append]
    rw [splitNl_no_ten buf.reverse
      (by intro c hc; exact hbuf c (by simpa using hc))]
    by_cases hb : buf = []
    · subst hb
      simp [dropTrailEmpty]
    · rw [if_neg hb]
      simp [dropTrailEmpty, List.reverse_eq_nil_iff, hb]
  | cons b rest ih =>
    intro buf hbuf
    by_cases hb : b = 10
    · subst hb
      simp only [revSegs, ite_true, if_true]
      rw [ih [] (by simp)]
      rw [List.reverse_cons, List.append_assoc, List.singleton_append,
        splitNl_append_ten,
        splitNl_no_ten buf.reverse
          (by intro c hc; exact hbuf c (by simpa using hc)),
        List.reverse_append]
      simp only [List.reverse_cons, List.reverse_nil, List.nil_append,
        List.singleton_append]
      rw [dropTrailEmpty_cons _ _ (by simp [splitNl_ne_nil])]
      simp
    · simp only [revSegs, if_neg hb]
      have hno : ∀ c ∈ buf ++ [b], c ≠ 10 := by
        intro c hc
        rcases List.mem_append.mp hc with h1 | h1
        · exact hbuf c h1
        · simp only [List.mem_singleton] at h1
          subst h1
          exact hb
      rw [ih (buf ++ [b]) hno]
      simp [List.reverse_cons, List.append_assoc, List.reverse_append]

theorem collect_tail_spec_general (content : List Nat) (n : Nat) :
    collect_tail content n
      = (dropTrailEmpty ((splitNl content).reverse)).take n := by
  unfold collect_tail
  rw [tail_collect_eq]
  simp only [List.length_nil, Nat.sub_zero, List.nil_append]
  by_cases h : 0 < n
  · rw [if_pos h, revSegs_eq content.reverse [] (by simp)]
    simp
  · rw [if_neg h]
    have hz : n = 0 := by omega
    subst hz
    simp

/-- C8 counterexample: on the newline-terminated file "ab\n" (bytes
97, 98, 10) with one requested line, the algorithm emits a single empty line
instead of the file's actual last line "ab". -/
theorem collect_tail_counterexample :
    collect_tail [97, 98, 10] 1 = [[]]
    ∧ (file_lines [97, 98, 10]).reverse.take 1 = [[97, 98]]
    ∧ ([[]] : List (List Nat)) ≠ [[97, 98]] := by
  refine ⟨rfl, rfl, by decide⟩

/-- C8 (amended): for every file content and requested count `n`, the
tail-read produces the first `n` elements of the reversed newline-split
segment sequence of the file, with a final empty segment discarded — so a
trailing newline contributes an empty first output line and displaces the
n-th last real line, an empty first segment (file starting with a newline, or
an empty file) is never emitted, and otherwise the output is exactly the last
`n` lines, last line first. -/
theorem collect_tail_spec (content : List Nat) (n : Nat) :
    collect_tail content n
      = (dropTrailEmpty ((splitNl content).reverse)).take n :=
  collect_tail_spec_general content n

-- ---------------------------------------------------------------------------
-- github_sync.py : the daily-sync pipeline
-- ---------------------------------------------------------------------------

/-- The effectful steps of `github_sync.trigger_daily_sync`. -/
inductive SyncStep where
  | runCollection
  | readUnprocessed
  | readLearnings
  | generateSummary
  | saveMarkdown
  | markProcessed
  | commitAndPush
deriving DecidableEq

/-- `trigger_daily_sync` as its straight-line sequence of steps, in source
order: collect, read the unprocessed commands and today's learnings, generate
the summary, save the markdown file, mark the commands processed, then commit
and push.  Every step is invoked unconditionally, one after the other. -/
def trigger_daily_sync_steps : List SyncStep :=
  [SyncStep.runCollection, SyncStep.readUnprocessed, SyncStep.readLearnings,
   SyncStep.generateSummary, SyncStep.saveMarkdown, SyncStep.markProcessed,
   SyncStep.commitAndPush]

/-- C9 counterexample: marking-processed is not the final step of the
pipeline — the commit-and-push step comes after it. -/
theorem trigger_daily_sync_mark_not_last :
    trigger_daily_sync_steps.getLast? = some SyncStep.commitAndPush
    ∧ trigger_daily_sync_steps[5]? = some SyncStep.markProcessed
    ∧ SyncStep.markProcessed ≠ SyncStep.commitAndPush := by
  refine ⟨rfl, rfl, by decide⟩

/-- C9 (amended): in the daily-sync pipeline the unprocessed commands read at
the start are marked processed after the markdown file has been written, but
before the git commit and push. -/
theorem trigger_daily_sync_mark_order :
    trigger_daily_sync_steps[4]? = some SyncStep.saveMarkdown
    ∧ trigger_daily_sync_steps[5]? = some SyncStep.markProcessed
    ∧ trigger_daily_sync_steps[6]? = some SyncStep.commitAndPush
    ∧ trigger_daily_sync_steps.length = 7
    ∧ trigger_daily_sync_steps.count SyncStep.markProcessed = 1 := by
  refine ⟨rfl, rfl, rfl, rfl, by decide⟩
